import Mathlib

/-!
Verification of the snippet file assembler of `snip` (`main.go`).

Bytes of the day file, the snippet, and all formatted text are modelled as
`List Char`.  The snippet pipeline of `run` (trim, emptiness check, newline
replacement, trailing newline) and the assembly of the final file contents
(optional header, existing bytes, separator, snippet line) are translated
directly from `run` in `main.go`.  The header line is produced by Go's
`Time.Format` on the layout `"--- Monday Jan _2 2006 in " + timezone + " ---"`,
so the relevant part of Go's layout machinery (`nextStdChunk` and the
per-token printing) is modelled as well, at second granularity (nanoseconds
taken as zero).
-/

namespace Snip

/-- The characters Go's `unicode.IsSpace` accepts in the Latin-1 range;
`bytes.TrimSpace` trims exactly these from both ends of ASCII input. -/
def goIsSpace (c : Char) : Bool :=
  c = ' ' || c = '\t' || c = '\n' || c = '\x0B' || c = '\x0C' || c = '\r' ||
  c = '\u0085' || c = '\u00A0'

/-- Go's `bytes.TrimSpace`: drop white space from both ends. -/
def trimSpace (s : List Char) : List Char :=
  ((s.dropWhile goIsSpace).reverse.dropWhile goIsSpace).reverse

instance {ε α : Type} [DecidableEq ε] [DecidableEq α] : DecidableEq (Except ε α) :=
  fun x y =>
    match x, y with
    | .error a, .error b =>
      if h : a = b then .isTrue (by rw [h]) else .isFalse (by simp [h])
    | .ok a, .ok b =>
      if h : a = b then .isTrue (by rw [h]) else .isFalse (by simp [h])
    | .error _, .ok _ => .isFalse (fun h => Except.noConfusion h)
    | .ok _, .error _ => .isFalse (fun h => Except.noConfusion h)

/-- The snippet normalization in `run`: trim, fail on empty, replace every
newline with a space, then append a single trailing newline. -/
def normalizeSnippet (raw : List Char) : Except String (List Char) :=
  let trimmed := trimSpace raw
  if trimmed.isEmpty then Except.error "snippet is empty"
  else Except.ok ((trimmed.map fun c => if c = '\n' then ' ' else c) ++ ['\n'])

/-- The reference-layout tokens of Go's `time` package (`format.go`). -/
inductive GoStd where
  | longMonth | month | numMonth | zeroMonth
  | longWeekDay | weekDay
  | day | underDay | zeroDay | underYearDay | zeroYearDay
  | hour | hour12 | zeroHour12 | minute | zeroMinute | second | zeroSecond
  | longYear | year
  | pmUpper | pmLower
  | tz
  | isoTZ | isoSecondsTZ | isoShortTZ | isoColonTZ | isoColonSecondsTZ
  | numTZ | numSecondsTZ | numShortTZ | numColonTZ | numColonSecondsTZ
  | fracSecond0 (n : Nat) (comma : Bool)
  | fracSecond9 (n : Nat) (comma : Bool)
deriving DecidableEq

/-- The character for a decimal digit (`'0' + digit` in Go's `appendInt`). -/
def digitChar : Nat → Char
  | 0 => '0' | 1 => '1' | 2 => '2' | 3 => '3' | 4 => '4'
  | 5 => '5' | 6 => '6' | 7 => '7' | 8 => '8' | 9 => '9'
  | _ => '*'

/-- Decimal digits of `n`, most significant first (structural fuel version). -/
def natDigitsAux : Nat → Nat → List Char
  | 0, _ => []
  | fuel + 1, n =>
    if n < 10 then [digitChar n]
    else natDigitsAux fuel (n / 10) ++ [digitChar (n % 10)]

/-- Decimal digits of `n`, most significant first. -/
def natDigits (n : Nat) : List Char := natDigitsAux (n + 1) n

/-- Go's `appendInt(b, x, width)`: a sign for negative `x`, then the decimal
digits of `|x|` left-padded with zeros to `width`. -/
def appendInt (x : Int) (width : Nat) : List Char :=
  let ds := natDigits x.natAbs
  (if x < 0 then ['-'] else []) ++ List.replicate (width - ds.length) '0' ++ ds

/-- The components of a Go `time.Time` that `Time.Format` reads, at second
granularity: the calendar date, the clock time, and the abbreviation and
offset (in seconds east of UTC) of the time's location. -/
structure GoTime where
  year : Int
  month : Nat
  day : Nat
  hour : Nat
  minute : Nat
  second : Nat
  zoneAbbrev : List Char
  zoneOffset : Int
deriving DecidableEq

/-- Days since 1970-01-01 of the proleptic-Gregorian date `year-month-day`. -/
def daysFromCivil (year : Int) (month day : Nat) : Int :=
  let y : Int := if month ≤ 2 then year - 1 else year
  let era : Int := Int.fdiv y 400
  let yoe : Int := y - era * 400
  let mp : Int := if month ≤ 2 then (month : Int) + 9 else (month : Int) - 3
  let doy : Int := Int.fdiv (153 * mp + 2) 5 + (day : Int) - 1
  let doe : Int := yoe * 365 + Int.fdiv yoe 4 - Int.fdiv yoe 100 + doy
  era * 146097 + doe - 719468

/-- Weekday of the date of `t`, `0 = Sunday`, as Go's `Time.Weekday` yields. -/
def weekdayNum (t : GoTime) : Nat :=
  ((daysFromCivil t.year t.month t.day + 4).emod 7).toNat

/-- Go's `Weekday.String` names (index `0 = Sunday`). -/
def longDayName : Nat → List Char
  | 0 => "Sunday".toList
  | 1 => "Monday".toList
  | 2 => "Tuesday".toList
  | 3 => "Wednesday".toList
  | 4 => "Thursday".toList
  | 5 => "Friday".toList
  | 6 => "Saturday".toList
  | _ => []

/-- Go's `Month.String` names (months are `1`-based). -/
def longMonthName : Nat → List Char
  | 1 => "January".toList
  | 2 => "February".toList
  | 3 => "March".toList
  | 4 => "April".toList
  | 5 => "May".toList
  | 6 => "June".toList
  | 7 => "July".toList
  | 8 => "August".toList
  | 9 => "September".toList
  | 10 => "October".toList
  | 11 => "November".toList
  | 12 => "December".toList
  | _ => []

/-- Gregorian leap-year test. -/
def isLeap (y : Int) : Bool :=
  y.emod 4 = 0 && (y.emod 100 ≠ 0 || y.emod 400 = 0)

/-- Days in the year before month `m` in a non-leap year. -/
def daysBeforeMonth : Nat → Nat
  | 1 => 0 | 2 => 31 | 3 => 59 | 4 => 90 | 5 => 120 | 6 => 151
  | 7 => 181 | 8 => 212 | 9 => 243 | 10 => 273 | 11 => 304 | 12 => 334
  | _ => 0

/-- Day of the year of `t` (`1`-based), as Go's `Time.YearDay` yields. -/
def yearDay (t : GoTime) : Nat :=
  daysBeforeMonth t.month + t.day + (if 2 < t.month && isLeap t.year then 1 else 0)

/-- The 12-hour clock value Go prints for `3` / `03`. -/
def hour12 (t : GoTime) : Nat := if t.hour % 12 = 0 then 12 else t.hour % 12

/-- The shared numeric-zone printing of Go's `Time.Format` (the `-0700`,
`Z07:00`, … tokens), translated branch by branch. -/
def formatNumericTZ (iso colon short seconds : Bool) (offset : Int) : List Char :=
  if iso && offset = 0 then ['Z']
  else
    let zone0 : Int := Int.tdiv offset 60
    let neg : Bool := zone0 < 0
    let zone : Int := if neg then -zone0 else zone0
    let absoffset : Int := if neg then -offset else offset
    (if neg then ['-'] else ['+'])
      ++ appendInt (Int.tdiv zone 60) 2
      ++ (if colon then [':'] else [])
      ++ (if short then [] else appendInt (Int.tmod zone 60) 2)
      ++ (if seconds then
            (if colon then [':'] else []) ++ appendInt (Int.tmod absoffset 60) 2
          else [])

/-- What Go's `Time.Format` prints for one layout token. -/
def formatToken (t : GoTime) : GoStd → List Char
  | .longMonth => longMonthName t.month
  | .month => (longMonthName t.month).take 3
  | .numMonth => appendInt (t.month : Int) 0
  | .zeroMonth => appendInt (t.month : Int) 2
  | .longWeekDay => longDayName (weekdayNum t)
  | .weekDay => (longDayName (weekdayNum t)).take 3
  | .day => appendInt (t.day : Int) 0
  | .underDay => (if t.day < 10 then [' '] else []) ++ appendInt (t.day : Int) 0
  | .zeroDay => appendInt (t.day : Int) 2
  | .underYearDay =>
      (if yearDay t < 100 then [' '] else []) ++ (if yearDay t < 10 then [' '] else [])
        ++ appendInt (yearDay t : Int) 0
  | .zeroYearDay => appendInt (yearDay t : Int) 3
  | .hour => appendInt (t.hour : Int) 2
  | .hour12 => appendInt (hour12 t : Int) 0
  | .zeroHour12 => appendInt (hour12 t : Int) 2
  | .minute => appendInt (t.minute : Int) 0
  | .zeroMinute => appendInt (t.minute : Int) 2
  | .second => appendInt (t.second : Int) 0
  | .zeroSecond => appendInt (t.second : Int) 2
  | .longYear => appendInt t.year 4
  | .year => appendInt ((t.year.natAbs % 100 : Nat) : Int) 2
  | .pmUpper => if t.hour < 12 then "AM".toList else "PM".toList
  | .pmLower => if t.hour < 12 then "am".toList else "pm".toList
  | .tz =>
      if t.zoneAbbrev.isEmpty then formatNumericTZ false false false false t.zoneOffset
      else t.zoneAbbrev
  | .isoTZ => formatNumericTZ true false false false t.zoneOffset
  | .isoColonTZ => formatNumericTZ true true false false t.zoneOffset
  | .isoShortTZ => formatNumericTZ true false true false t.zoneOffset
  | .isoSecondsTZ => formatNumericTZ true false false true t.zoneOffset
  | .isoColonSecondsTZ => formatNumericTZ true true false true t.zoneOffset
  | .numTZ => formatNumericTZ false false false false t.zoneOffset
  | .numColonTZ => formatNumericTZ false true false false t.zoneOffset
  | .numShortTZ => formatNumericTZ false false true false t.zoneOffset
  | .numSecondsTZ => formatNumericTZ false false false true t.zoneOffset
  | .numColonSecondsTZ => formatNumericTZ false true false true t.zoneOffset
  | .fracSecond0 n comma => (if comma then [','] else ['.']) ++ List.replicate n '0'
  | .fracSecond9 _ _ => []

/-- `p.toList` begins `l`. -/
def startsWith (p : String) (l : List Char) : Bool := p.toList.isPrefixOf l

/-- Go's `startsWithLowerCase`. -/
def startsLower : List Char → Bool
  | [] => false
  | c :: _ => 'a' ≤ c && c ≤ 'z'

/-- ASCII decimal digit test (Go's `isDigit`). -/
def isDigitChar (c : Char) : Bool := '0' ≤ c && c ≤ '9'

/-- One position of Go's `nextStdChunk` scan: does a layout token start at the
character `c` (with `rest` following it)?  `some (k, tok, m)` means the first
`k` characters of `c :: rest` stay literal, token `tok` follows, and the
remaining layout is `rest.drop m`.  (`k = 1` only for Go's `_2006` special
case, where the `_` is literal and `2006` is the year token.) -/
def tryToken (c : Char) (rest : List Char) : Option (Nat × GoStd × Nat) :=
  if c = 'J' then
    if startsWith "anuary" rest then some (0, .longMonth, 6)
    else if startsWith "an" rest && !startsLower (rest.drop 2) then some (0, .month, 2)
    else none
  else if c = 'M' then
    if startsWith "onday" rest then some (0, .longWeekDay, 5)
    else if startsWith "on" rest && !startsLower (rest.drop 2) then some (0, .weekDay, 2)
    else if startsWith "ST" rest then some (0, .tz, 2)
    else none
  else if c = '0' then
    match rest with
    | d :: _ =>
      if d = '1' then some (0, .zeroMonth, 1)
      else if d = '2' then some (0, .zeroDay, 1)
      else if d = '3' then some (0, .zeroHour12, 1)
      else if d = '4' then some (0, .zeroMinute, 1)
      else if d = '5' then some (0, .zeroSecond, 1)
      else if d = '6' then some (0, .year, 1)
      else if startsWith "02" rest then some (0, .zeroYearDay, 2)
      else none
    | [] => none
  else if c = '1' then
    if startsWith "5" rest then some (0, .hour, 1) else some (0, .numMonth, 0)
  else if c = '2' then
    if startsWith "006" rest then some (0, .longYear, 3) else some (0, .day, 0)
  else if c = '_' then
    if startsWith "2006" rest then some (1, .longYear, 4)
    else if startsWith "2" rest then some (0, .underDay, 1)
    else if startsWith "_2" rest then some (0, .underYearDay, 2)
    else none
  else if c = '3' then some (0, .hour12, 0)
  else if c = '4' then some (0, .minute, 0)
  else if c = '5' then some (0, .second, 0)
  else if c = 'P' then
    if startsWith "M" rest then some (0, .pmUpper, 1) else none
  else if c = 'p' then
    if startsWith "m" rest then some (0, .pmLower, 1) else none
  else if c = '-' then
    if startsWith "070000" rest then some (0, .numSecondsTZ, 6)
    else if startsWith "07:00:00" rest then some (0, .numColonSecondsTZ, 8)
    else if startsWith "0700" rest then some (0, .numTZ, 4)
    else if startsWith "07:00" rest then some (0, .numColonTZ, 5)
    else if startsWith "07" rest then some (0, .numShortTZ, 2)
    else none
  else if c = 'Z' then
    if startsWith "070000" rest then some (0, .isoSecondsTZ, 6)
    else if startsWith "07:00:00" rest then some (0, .isoColonSecondsTZ, 8)
    else if startsWith "0700" rest then some (0, .isoTZ, 4)
    else if startsWith "07:00" rest then some (0, .isoColonTZ, 5)
    else if startsWith "07" rest then some (0, .isoShortTZ, 2)
    else none
  else if c = '.' || c = ',' then
    match rest with
    | d :: _ =>
      if d = '0' || d = '9' then
        let j := (rest.takeWhile (· = d)).length
        if !isDigitChar ((rest.drop j).headD ' ') then
          if d = '0' then some (0, .fracSecond0 j (c = ','), j)
          else some (0, .fracSecond9 j (c = ','), j)
        else none
      else none
    | [] => none
  else none

/-- Go's `nextStdChunk`: the literal prefix of the layout, and the first
layout token with the remaining layout after it, if any. -/
def nextStdChunk : List Char → List Char × Option (GoStd × List Char)
  | [] => ([], none)
  | c :: rest =>
    match tryToken c rest with
    | some (k, tok, m) => ((c :: rest).take k, some (tok, rest.drop m))
    | none => ((nextStdChunk rest).1.cons c, (nextStdChunk rest).2)

/-- Go's `Time.Format` loop, with explicit fuel (each step consumes at least
one layout character, so `layout.length` fuel always suffices). -/
def goFormatF : Nat → GoTime → List Char → List Char
  | 0, _, layout => layout
  | fuel + 1, t, layout =>
    match nextStdChunk layout with
    | (lit, none) => lit
    | (lit, some (tok, suffix)) => lit ++ formatToken t tok ++ goFormatF fuel t suffix

/-- Go's `Time.Format` on a layout. -/
def goFormat (t : GoTime) (layout : List Char) : List Char :=
  goFormatF layout.length t layout

/-- The 3-character marker `run` uses to detect an existing header. -/
def headerMarker : List Char := "---".toList

/-- The placeholder `run` substitutes when `inferLocalTimezone` fails. -/
def unknownTimezone : List Char := "<unknown timezone>".toList

/-- The timezone label `run` puts into the header layout: the inferred name on
success, the placeholder on failure (the inference error is only logged). -/
def resolveTimezone : Except String (List Char) → List Char
  | .ok tzName => tzName
  | .error _ => unknownTimezone

/-- The header layout string `run` builds:
`"--- Monday Jan _2 2006 in " + timezone + " ---"`. -/
def headerFormat (timezone : List Char) : List Char :=
  "--- Monday Jan _2 2006 in ".toList ++ timezone ++ " ---".toList

/-- The header line `run` writes: `now.Format(headerFormat)`. -/
def formatHeaderLine (t : GoTime) (timezone : List Char) : List Char :=
  goFormat t (headerFormat timezone)

/-- The bytes the header branch of `run` contributes: the formatted header
plus a newline when `-include_header=true` and the existing bytes do not
start with `"---"`, nothing otherwise. -/
def emittedHeader (includeHeader : Bool) (t : GoTime)
    (tzResult : Except String (List Char)) (existing : List Char) : List Char :=
  if includeHeader && !(headerMarker.isPrefixOf existing) then
    formatHeaderLine t (resolveTimezone tzResult) ++ ['\n']
  else []

/-- The separator `run` inserts when the existing bytes are non-empty and do
not already end in a newline. -/
def sepFor (existing : List Char) : List Char :=
  if existing.length ≠ 0 ∧ existing.getLast? ≠ some '\n' then ['\n'] else []

/-- The assembled day-file contents of `run`: the optional header, the
existing bytes verbatim, the separator, then the newline-terminated snippet. -/
def assembleFile (includeHeader : Bool) (t : GoTime)
    (tzResult : Except String (List Char)) (existing snippet : List Char) : List Char :=
  emittedHeader includeHeader t tzResult existing ++ existing ++ sepFor existing ++ snippet

/-- The snippet pipeline of `run`, from the raw edited snippet bytes to the
bytes handed to the atomic write (or the error `run` returns). -/
def runAssemble (includeHeader : Bool) (t : GoTime)
    (tzResult : Except String (List Char)) (existing raw : List Char) :
    Except String (List Char) :=
  (normalizeSnippet raw).map (assembleFile includeHeader t tzResult existing)

/-- The day file's contents after `run`: unchanged when `run` returns an
error before the atomic write, the assembled bytes otherwise. -/
def runOnFile (includeHeader : Bool) (t : GoTime)
    (tzResult : Except String (List Char)) (existing raw : List Char) : List Char :=
  match runAssemble includeHeader t tzResult existing raw with
  | .error _ => existing
  | .ok out => out

/-- The pre-filled snippet `run` writes to the temporary file before any
editing: the formatted timestamp, `" | "`, then the `-m` message. -/
def initialSnippet (timeFormat : List Char) (t : GoTime) (message : List Char) : List Char :=
  goFormat t timeFormat ++ " | ".toList ++ message

/-- Everything up to the first newline. -/
def firstLine (s : List Char) : List Char := s.takeWhile (fun c => c != '\n')

/-- Everything after the first newline. -/
def restAfterFirstLine (s : List Char) : List Char :=
  (s.dropWhile (fun c => c != '\n')).drop 1

/-- Whether a `run` outcome is a success. -/
def succeeds : Except String (List Char) → Bool
  | .ok _ => true
  | .error _ => false

/-- 2024-11-20 (a Wednesday) at 09:30 in Ireland's winter time
(abbreviation GMT, offset 0). -/
def dublinTime : GoTime := ⟨2024, 11, 20, 9, 30, 0, "GMT".toList, 0⟩

/-- 2024-07-10 (a Wednesday) at 09:30 under `TZ=MST7MDT` in daylight-saving
time (abbreviation MDT, offset -6h). -/
def julyTime : GoTime := ⟨2024, 7, 10, 9, 30, 0, "MDT".toList, -21600⟩

/-! ### Properties of the layout scanner and formatter -/

theorem nextStdChunk_lit_subset (l : List Char) : ∀ c ∈ (nextStdChunk l).1, c ∈ l := by
  induction l with
  | nil => simp [nextStdChunk]
  | cons a rest ih =>
    intro c hc
    rcases htok : tryToken a rest with _ | ⟨k, tok, m⟩
    · simp only [nextStdChunk, htok, List.cons] at hc
      rcases List.mem_cons.mp hc with hc | hc
      · simp [hc]
      · exact List.mem_cons_of_mem a (ih c hc)
    · simp only [nextStdChunk, htok] at hc
      exact List.take_subset k (a :: rest) hc

theorem nextStdChunk_suffix_subset (l : List Char) :
    ∀ tok suf, (nextStdChunk l).2 = some (tok, suf) → ∀ c ∈ suf, c ∈ l := by
  induction l with
  | nil => simp [nextStdChunk]
  | cons a rest ih =>
    intro tok suf hsuf c hc
    rcases htok : tryToken a rest with _ | ⟨k, tok2, m⟩
    · simp only [nextStdChunk, htok] at hsuf
      exact List.mem_cons_of_mem a (ih tok suf hsuf c hc)
    · simp only [nextStdChunk, htok, Option.some.injEq, Prod.mk.injEq] at hsuf
      rcases hsuf with ⟨rfl, rfl⟩
      exact List.mem_cons_of_mem a (List.drop_subset m rest hc)

theorem nextStdChunk_suffix_length (l : List Char) :
    ∀ tok suf, (nextStdChunk l).2 = some (tok, suf) → suf.length < l.length := by
  induction l with
  | nil => simp [nextStdChunk]
  | cons a rest ih =>
    intro tok suf hsuf
    rcases htok : tryToken a rest with _ | ⟨k, tok2, m⟩
    · simp only [nextStdChunk, htok] at hsuf
      exact Nat.lt_trans (ih tok suf hsuf) (by simp)
    · simp only [nextStdChunk, htok, Option.some.injEq, Prod.mk.injEq] at hsuf
      rcases hsuf with ⟨rfl, rfl⟩
      have := List.length_drop m rest
      simp only [this, List.length_cons]
      omega

theorem nextStdChunk_none_eq (l : List Char) :
    (nextStdChunk l).2 = none → (nextStdChunk l).1 = l := by
  induction l with
  | nil => simp [nextStdChunk]
  | cons a rest ih =>
    intro hn
    rcases htok : tryToken a rest with _ | ⟨k, tok, m⟩
    · simp only [nextStdChunk, htok, List.cons] at hn ⊢
      rw [ih hn]
    · simp only [nextStdChunk, htok] at hn
      exact absurd hn (by simp)

theorem goFormatF_nil (fuel : Nat) (t : GoTime) : goFormatF fuel t [] = [] := by
  cases fuel <;> simp [goFormatF, nextStdChunk]

theorem goFormatF_congr (t : GoTime) :
    ∀ (n : Nat) (l : List Char) (f₁ f₂ : Nat), l.length ≤ n →
      l.length ≤ f₁ → l.length ≤ f₂ → goFormatF f₁ t l = goFormatF f₂ t l := by
  intro n
  induction n with
  | zero =>
    intro l f₁ f₂ hn _ _
    have : l = [] := List.length_eq_zero.mp (Nat.le_zero.mp hn)
    subst this
    simp [goFormatF_nil]
  | succ n ih =>
    intro l f₁ f₂ hn h₁ h₂
    cases l with
    | nil => simp [goFormatF_nil]
    | cons a rest =>
      cases f₁ with
      | zero => simp at h₁
      | succ g₁ =>
        cases f₂ with
        | zero => simp at h₂
        | succ g₂ =>
          simp only [goFormatF]
          rcases hch : nextStdChunk (a :: rest) with ⟨lit, o⟩
          rcases o with _ | ⟨tok, suf⟩
          · rfl
          · have hlen : suf.length < (a :: rest).length :=
              nextStdChunk_suffix_length (a :: rest) tok suf (by rw [hch])
            have := ih suf g₁ g₂ (by simp at hn hlen ⊢; omega)
              (by simp at h₁ hlen ⊢; omega) (by simp at h₂ hlen ⊢; omega)
            simp [this]

theorem goFormatF_eq_goFormat (t : GoTime) (l : List Char) (f : Nat) (hf : l.length ≤ f) :
    goFormatF f t l = goFormat t l :=
  goFormatF_congr t l.length l f l.length Nat.le.refl hf Nat.le.refl

theorem goFormat_chunk_none {l lit : List Char} (t : GoTime)
    (h : nextStdChunk l = (lit, none)) : goFormat t l = lit := by
  have hlit : (nextStdChunk l).1 = l := nextStdChunk_none_eq l (by rw [h])
  rw [h] at hlit
  cases l with
  | nil =>
    subst hlit
    simp [goFormat, goFormatF_nil]
  | cons a rest =>
    show goFormatF (a :: rest).length t (a :: rest) = lit
    simp only [List.length_cons, goFormatF, h]

theorem goFormat_chunk_some {l lit suf : List Char} {tok : GoStd} (t : GoTime)
    (h : nextStdChunk l = (lit, some (tok, suf))) :
    goFormat t l = lit ++ formatToken t tok ++ goFormat t suf := by
  cases l with
  | nil => simp [nextStdChunk] at h
  | cons a rest =>
    have hlen : suf.length < (a :: rest).length :=
      nextStdChunk_suffix_length (a :: rest) tok suf (by rw [h])
    show goFormatF (a :: rest).length t (a :: rest) = _
    simp only [List.length_cons, goFormatF, h]
    rw [goFormatF_eq_goFormat t suf rest.length (by simp at hlen; omega)]

/-! ### The formatter never produces a newline from a newline-free layout -/

theorem digitChar_ne_newline (n : Nat) : digitChar n ≠ '\n' := by
  intro h
  unfold digitChar at h
  split at h <;> exact absurd h (by decide)

theorem natDigitsAux_no_newline (fuel : Nat) : ∀ n, '\n' ∉ natDigitsAux fuel n := by
  induction fuel with
  | zero => intro n; simp [natDigitsAux]
  | succ fuel ih =>
    intro n
    simp only [natDigitsAux]
    split
    · simp only [List.mem_singleton]
      exact fun h => digitChar_ne_newline n h.symm
    · intro h
      rcases List.mem_append.mp h with h | h
      · exact ih (n / 10) h
      · simp only [List.mem_singleton] at h
        exact digitChar_ne_newline (n % 10) h.symm

theorem natDigits_no_newline (n : Nat) : '\n' ∉ natDigits n :=
  natDigitsAux_no_newline _ n

theorem appendInt_no_newline (x : Int) (w : Nat) : '\n' ∉ appendInt x w := by
  intro h
  simp only [appendInt, List.mem_append] at h
  rcases h with (h | h) | h
  · split at h <;> simp at h
  · have := List.eq_of_mem_replicate h
    simp at this
  · exact natDigits_no_newline _ h

theorem formatNumericTZ_no_newline (a b c d : Bool) (off : Int) :
    '\n' ∉ formatNumericTZ a b c d off := by
  unfold formatNumericTZ
  split
  · decide
  · intro h
    simp only [List.mem_append] at h
    rcases h with (((h | h) | h) | h) | h
    · split at h <;> simp at h
    · exact appendInt_no_newline _ _ h
    · split at h <;> simp at h
    · split at h
      · simp at h
      · exact appendInt_no_newline _ _ h
    · split at h
      · rcases List.mem_append.mp h with h | h
        · split at h <;> simp at h
        · exact appendInt_no_newline _ _ h
      · simp at h

theorem longDayName_no_newline (n : Nat) : '\n' ∉ longDayName n := by
  unfold longDayName
  split
  all_goals decide

theorem longMonthName_no_newline (n : Nat) : '\n' ∉ longMonthName n := by
  unfold longMonthName
  split
  all_goals decide

theorem formatToken_no_newline (t : GoTime) (habb : '\n' ∉ t.zoneAbbrev) (tok : GoStd) :
    '\n' ∉ formatToken t tok := by
  cases tok <;> simp only [formatToken]
  case longMonth => exact longMonthName_no_newline _
  case month => exact fun h => longMonthName_no_newline _ (List.take_subset _ _ h)
  case longWeekDay => exact longDayName_no_newline _
  case weekDay => exact fun h => longDayName_no_newline _ (List.take_subset _ _ h)
  case underDay =>
    intro h
    rcases List.mem_append.mp h with h | h
    · split at h <;> simp at h
    · exact appendInt_no_newline _ _ h
  case underYearDay =>
    intro h
    rcases List.mem_append.mp h with h | h
    · rcases List.mem_append.mp h with h | h <;> (split at h <;> simp at h)
    · exact appendInt_no_newline _ _ h
  case pmUpper => split <;> decide
  case pmLower => split <;> decide
  case tz =>
    split
    · exact formatNumericTZ_no_newline _ _ _ _ _
    · exact habb
  case fracSecond0 n comma =>
    intro h
    rcases List.mem_append.mp h with h | h
    · split at h <;> simp at h
    · have := List.eq_of_mem_replicate h
      simp at this
  case fracSecond9 n comma => simp
  all_goals first
    | exact appendInt_no_newline _ _
    | exact formatNumericTZ_no_newline _ _ _ _ _

theorem goFormatF_no_newline (t : GoTime) (habb : '\n' ∉ t.zoneAbbrev) :
    ∀ (fuel : Nat) (l : List Char), '\n' ∉ l → '\n' ∉ goFormatF fuel t l := by
  intro fuel
  induction fuel with
  | zero => intro l hl; simpa [goFormatF] using hl
  | succ fuel ih =>
    intro l hl
    rcases hch : nextStdChunk l with ⟨lit, o⟩
    rcases o with _ | ⟨tok, suf⟩
    · simp only [goFormatF, hch]
      exact fun h => hl (nextStdChunk_lit_subset l '\n' (by rw [hch]; exact h))
    · simp only [goFormatF, hch]
      intro h
      rcases List.mem_append.mp h with h | h
      · rcases List.mem_append.mp h with h | h
        · exact hl (nextStdChunk_lit_subset l '\n' (by rw [hch]; exact h))
        · exact formatToken_no_newline t habb tok h
      · refine ih suf ?_ h
        exact fun hm => hl (nextStdChunk_suffix_subset l tok suf (by rw [hch]) '\n' hm)

theorem goFormat_no_newline (t : GoTime) (habb : '\n' ∉ t.zoneAbbrev)
    (l : List Char) (hl : '\n' ∉ l) : '\n' ∉ goFormat t l :=
  goFormatF_no_newline t habb l.length l hl

/-! ### Small list facts used for line structure -/

theorem takeWhile_all {p : Char → Bool} :
    ∀ l : List Char, (∀ c ∈ l, p c = true) → l.takeWhile p = l := by
  intro l
  induction l with
  | nil => simp
  | cons a rest ih =>
    intro h
    have ha : p a = true := h a (by simp)
    simp [List.takeWhile_cons, ha, ih fun c hc => h c (List.mem_cons_of_mem a hc)]

theorem takeWhile_append_all {p : Char → Bool} :
    ∀ (l r : List Char), (∀ c ∈ l, p c = true) →
      (l ++ r).takeWhile p = l ++ r.takeWhile p := by
  intro l r
  induction l with
  | nil => simp
  | cons a rest ih =>
    intro h
    have ha : p a = true := h a (by simp)
    simp [List.takeWhile_cons, ha, ih fun c hc => h c (List.mem_cons_of_mem a hc)]

theorem takeWhile_append_stop {p : Char → Bool} :
    ∀ (l r : List Char), (∃ c ∈ l, p c = false) →
      (l ++ r).takeWhile p = l.takeWhile p := by
  intro l r
  induction l with
  | nil => simp
  | cons a rest ih =>
    intro h
    cases ha : p a with
    | false => simp [List.takeWhile_cons, ha]
    | true =>
      rcases h with ⟨c, hc, hpc⟩
      rcases List.mem_cons.mp hc with rfl | hc
      · rw [ha] at hpc; cases hpc
      · simp [List.takeWhile_cons, ha, ih ⟨c, hc, hpc⟩]

theorem dropWhile_append_all {p : Char → Bool} :
    ∀ (l r : List Char), (∀ c ∈ l, p c = true) →
      (l ++ r).dropWhile p = r.dropWhile p := by
  intro l r
  induction l with
  | nil => simp
  | cons a rest ih =>
    intro h
    have ha : p a = true := h a (by simp)
    simp [List.dropWhile_cons, ha, ih fun c hc => h c (List.mem_cons_of_mem a hc)]

theorem dropWhile_append_stop {p : Char → Bool} :
    ∀ (l r : List Char), (∃ c ∈ l, p c = false) →
      (l ++ r).dropWhile p = l.dropWhile p ++ r := by
  intro l r
  induction l with
  | nil => simp
  | cons a rest ih =>
    intro h
    cases ha : p a with
    | false => simp [List.dropWhile_cons, ha]
    | true =>
      rcases h with ⟨c, hc, hpc⟩
      rcases List.mem_cons.mp hc with rfl | hc
      · rw [ha] at hpc; cases hpc
      · simp [List.dropWhile_cons, ha, ih ⟨c, hc, hpc⟩]

theorem isPrefixOf_exists {p : List Char} :
    ∀ {l : List Char}, p.isPrefixOf l = true → ∃ u, l = p ++ u := by
  induction p with
  | nil => exact fun {l} _ => ⟨l, rfl⟩
  | cons a as ih =>
    intro l h
    cases l with
    | nil => simp [List.isPrefixOf] at h
    | cons b bs =>
      simp only [List.isPrefixOf, Bool.and_eq_true, beq_iff_eq] at h
      rcases h with ⟨rfl, h⟩
      rcases ih h with ⟨u, rfl⟩
      exact ⟨u, rfl⟩

theorem exists_isPrefixOf (p : List Char) :
    ∀ u : List Char, p.isPrefixOf (p ++ u) = true := by
  induction p with
  | nil => simp [List.isPrefixOf]
  | cons a as ih => intro u; simp [List.isPrefixOf, ih u]

theorem isPrefixOf_append {p l : List Char} (r : List Char)
    (h : p.isPrefixOf l = true) : p.isPrefixOf (l ++ r) = true := by
  rcases isPrefixOf_exists h with ⟨u, rfl⟩
  rw [List.append_assoc]
  exact exists_isPrefixOf p (u ++ r)

/-! ### Facts about the normalized snippet -/

theorem normalizeSnippet_ok {raw snip : List Char}
    (h : normalizeSnippet raw = Except.ok snip) :
    snip = ((trimSpace raw).map fun c => if c = '\n' then ' ' else c) ++ ['\n']
    ∧ trimSpace raw ≠ [] := by
  simp only [normalizeSnippet] at h
  split at h
  · cases h
  · rename_i hne
    refine ⟨(Except.ok.inj h).symm, ?_⟩
    intro hnil
    simp [hnil] at hne

theorem normalizeSnippet_head {raw snip : List Char}
    (h : normalizeSnippet raw = Except.ok snip) :
    snip.head? ≠ some '\n' ∧ snip ≠ [] := by
  rcases normalizeSnippet_ok h with ⟨hs, hne⟩
  subst hs
  cases htr : trimSpace raw with
  | nil => exact absurd htr hne
  | cons a as =>
    refine ⟨?_, by simp⟩
    simp only [List.map_cons, List.cons_append, List.head?_cons, ne_eq,
      Option.some.injEq]
    split
    · decide
    · assumption

/-! ### Structure of the formatted header line -/

theorem formatHeaderLine_head (t : GoTime) (tz : List Char) :
    formatHeaderLine t tz
      = '-' :: '-' :: '-' :: ' ' ::
          (formatToken t GoStd.longWeekDay
            ++ goFormat t (" Jan _2 2006 in ".toList ++ (tz ++ " ---".toList))) := by
  have h : nextStdChunk (headerFormat tz)
      = ("--- ".toList,
          some (GoStd.longWeekDay, " Jan _2 2006 in ".toList ++ (tz ++ " ---".toList))) := rfl
  unfold formatHeaderLine
  rw [goFormat_chunk_some t h]
  rfl

theorem formatHeaderLine_marker (t : GoTime) (tz : List Char) :
    headerMarker.isPrefixOf (formatHeaderLine t tz) = true := by
  rw [formatHeaderLine_head]
  rfl

theorem formatHeaderLine_no_newline (t : GoTime) (tz : List Char)
    (habb : '\n' ∉ t.zoneAbbrev) (htz : '\n' ∉ tz) : '\n' ∉ formatHeaderLine t tz := by
  unfold formatHeaderLine
  apply goFormat_no_newline t habb
  intro h
  simp only [headerFormat] at h
  rcases List.mem_append.mp h with h | h
  · rcases List.mem_append.mp h with h | h
    · revert h; decide
    · exact htz h
  · revert h; decide

/-! ### Assembly-level helper lemmas -/

theorem emittedHeader_of_marker {existing : List Char} (includeHeader : Bool) (t : GoTime)
    (tzResult : Except String (List Char)) (hm : headerMarker.isPrefixOf existing = true) :
    emittedHeader includeHeader t tzResult existing = [] := by
  simp [emittedHeader, hm]

theorem emittedHeader_of_true {existing : List Char} (t : GoTime)
    (tzResult : Except String (List Char)) (hm : headerMarker.isPrefixOf existing = false) :
    emittedHeader true t tzResult existing
      = formatHeaderLine t (resolveTimezone tzResult) ++ ['\n'] := by
  simp [emittedHeader, hm]

theorem emittedHeader_of_false (t : GoTime) (tzResult : Except String (List Char))
    (existing : List Char) : emittedHeader false t tzResult existing = [] := by
  simp [emittedHeader]

theorem getLast?_mem : ∀ (l : List Char) (c : Char), l.getLast? = some c → c ∈ l := by
  intro l
  induction l with
  | nil => simp
  | cons a rest ih =>
    intro c h
    cases rest with
    | nil =>
      simp only [List.getLast?_singleton, Option.some.injEq] at h
      simp [h]
    | cons b bs =>
      rw [List.getLast?_cons_cons] at h
      exact List.mem_cons_of_mem a (ih c h)

theorem sepFor_of_no_newline {existing : List Char} (hne : existing ≠ [])
    (hnl : '\n' ∉ existing) : sepFor existing = ['\n'] := by
  unfold sepFor
  rw [if_pos]
  refine ⟨fun h => hne (List.length_eq_zero.mp h), fun h => ?_⟩
  exact hnl (getLast?_mem existing '\n' h)

theorem firstLine_append_sep (existing snippet : List Char) (hne : existing ≠ []) :
    firstLine (existing ++ sepFor existing ++ snippet) = firstLine existing := by
  by_cases hnl : '\n' ∈ existing
  · have hstop : ∃ c ∈ existing, (fun c => c != '\n') c = false := ⟨'\n', hnl, by simp⟩
    unfold firstLine
    rw [List.append_assoc]
    exact takeWhile_append_stop _ _ hstop
  · have hall : ∀ c ∈ existing, (fun c => c != '\n') c = true := by
      intro c hc
      simp only [bne_iff_ne, ne_eq, decide_eq_true_eq]
      exact fun he => hnl (he ▸ hc)
    rw [sepFor_of_no_newline hne hnl]
    unfold firstLine
    rw [List.append_assoc, takeWhile_append_all _ _ hall, takeWhile_all _ hall]
    simp [List.takeWhile_cons]

theorem marker_free_firstLine {existing : List Char}
    (hm : headerMarker.isPrefixOf existing = false) :
    headerMarker.isPrefixOf (firstLine existing) = false := by
  cases htw : headerMarker.isPrefixOf (firstLine existing) with
  | false => rfl
  | true =>
    exfalso
    rcases isPrefixOf_exists htw with ⟨u, hu⟩
    have hdec : existing
        = firstLine existing ++ existing.dropWhile (fun c => c != '\n') :=
      (List.takeWhile_append_dropWhile (fun c => c != '\n') existing).symm
    rw [hu] at hdec
    have hpre : headerMarker.isPrefixOf existing = true := by
      rw [hdec, List.append_assoc]
      exact exists_isPrefixOf _ _
    rw [hpre] at hm
    cases hm

theorem getElem?_append_offset (A : List Char) :
    ∀ (B : List Char) (i : Nat), (A ++ B)[A.length + i]? = B[i]? := by
  induction A with
  | nil => intro B i; simp
  | cons a A ih =>
    intro B i
    have hlen : (a :: A).length + i = (A.length + i) + 1 := by
      simp [List.length_cons]
      omega
    rw [hlen]
    simp only [List.cons_append, List.getElem?_cons_succ]
    exact ih B i

theorem getElem?_append_inside (A B : List Char) :
    ∀ i : Nat, i < A.length → (A ++ B)[i]? = A[i]? := by
  induction A with
  | nil => intro i hi; simp at hi
  | cons a A ih =>
    intro i hi
    cases i with
    | zero => simp
    | succ j =>
      simp only [List.cons_append, List.getElem?_cons_succ]
      exact ih j (by simp at hi; omega)

/-! ### The claims -/

/-- Claim C1: for every existing-file content, the assembler emits a header
line first if and only if header inclusion is enabled and the existing
content does not start with the 3-character marker `"---"`; when a header is
emitted for non-empty marker-free existing content, exactly one header line
is emitted (the output's first line is the header and its second line does
not carry the marker). -/
theorem c1_header_emission (includeHeader : Bool) (t : GoTime)
    (tzResult : Except String (List Char)) (existing snippet : List Char)
    (habb : '\n' ∉ t.zoneAbbrev) (htz : '\n' ∉ resolveTimezone tzResult) :
    (assembleFile includeHeader t tzResult existing snippet
        = formatHeaderLine t (resolveTimezone tzResult)
            ++ '\n' :: (existing ++ sepFor existing ++ snippet)
      ↔ includeHeader = true ∧ headerMarker.isPrefixOf existing = false)
    ∧ (includeHeader = true → headerMarker.isPrefixOf existing = false →
        existing ≠ [] →
        firstLine (assembleFile includeHeader t tzResult existing snippet)
            = formatHeaderLine t (resolveTimezone tzResult)
        ∧ restAfterFirstLine (assembleFile includeHeader t tzResult existing snippet)
            = existing ++ sepFor existing ++ snippet
        ∧ headerMarker.isPrefixOf
            (firstLine (existing ++ sepFor existing ++ snippet)) = false) := by
  have hnl : '\n' ∉ formatHeaderLine t (resolveTimezone tzResult) :=
    formatHeaderLine_no_newline t _ habb htz
  have hall : ∀ c ∈ formatHeaderLine t (resolveTimezone tzResult),
      (fun c => c != '\n') c = true := by
    intro c hc
    simp only [bne_iff_ne, ne_eq, decide_eq_true_eq]
    exact fun he => hnl (he ▸ hc)
  constructor
  · constructor
    · intro heq
      by_contra hcon
      have hemp : emittedHeader includeHeader t tzResult existing = [] := by
        cases hih : includeHeader with
        | false => exact emittedHeader_of_false t tzResult existing
        | true =>
          cases hm : headerMarker.isPrefixOf existing with
          | false => exact absurd ⟨rfl, hm⟩ (hih ▸ hcon)
          | true => exact emittedHeader_of_marker true t tzResult hm
      have hlen := congrArg List.length heq
      simp only [assembleFile, hemp, List.nil_append, List.length_append,
        List.length_cons] at hlen
      omega
    · rintro ⟨hih, hm⟩
      subst hih
      rw [assembleFile, emittedHeader_of_true t tzResult hm]
      simp [List.append_assoc]
  · intro hih hm hne
    subst hih
    have hout : assembleFile true t tzResult existing snippet
        = formatHeaderLine t (resolveTimezone tzResult)
            ++ '\n' :: (existing ++ sepFor existing ++ snippet) := by
      rw [assembleFile, emittedHeader_of_true t tzResult hm]
      simp [List.append_assoc]
    refine ⟨?_, ?_, ?_⟩
    · rw [hout]
      unfold firstLine
      rw [takeWhile_append_all _ _ hall]
      simp [List.takeWhile_cons]
    · rw [hout]
      unfold restAfterFirstLine
      rw [dropWhile_append_all _ _ hall]
      simp [List.dropWhile_cons]
    · rw [firstLine_append_sep existing snippet hne]
      exact marker_free_firstLine hm

/-- Witness for C1 at a concrete input. -/
theorem c1_witness :
    ('\n' ∉ dublinTime.zoneAbbrev
      ∧ '\n' ∉ resolveTimezone (Except.ok "Europe/Dublin".toList))
    ∧ assembleFile true dublinTime (Except.ok "Europe/Dublin".toList)
          "08:00 | x\n".toList "09:30 | at desk\n".toList
        = formatHeaderLine dublinTime (resolveTimezone (Except.ok "Europe/Dublin".toList))
            ++ '\n' :: ("08:00 | x\n".toList ++ sepFor "08:00 | x\n".toList
                ++ "09:30 | at desk\n".toList) := by
  refine ⟨⟨by decide, by decide⟩, ?_⟩
  exact ((c1_header_emission true dublinTime (Except.ok "Europe/Dublin".toList)
      "08:00 | x\n".toList "09:30 | at desk\n".toList (by decide) (by decide)).1).mpr
    ⟨rfl, by decide⟩

/-- Claim C2: existing content that already starts with the `"---"` marker is
kept at the front of the output unchanged, whatever the header-inclusion
flag; in particular the output's first line is the existing first (header)
line, so a day file never loses its header on a subsequent write. -/
theorem c2_header_never_lost (includeHeader : Bool) (t : GoTime)
    (tzResult : Except String (List Char)) (existing snippet : List Char)
    (hm : headerMarker.isPrefixOf existing = true) :
    assembleFile includeHeader t tzResult existing snippet
        = existing ++ sepFor existing ++ snippet
    ∧ (∃ added, assembleFile includeHeader t tzResult existing snippet
        = existing ++ added)
    ∧ firstLine (assembleFile includeHeader t tzResult existing snippet)
        = firstLine existing := by
  have hne : existing ≠ [] := by
    intro h
    subst h
    exact absurd hm (by decide)
  have heq : assembleFile includeHeader t tzResult existing snippet
      = existing ++ sepFor existing ++ snippet := by
    rw [assembleFile, emittedHeader_of_marker includeHeader t tzResult hm]
    rfl
  refine ⟨heq, ⟨sepFor existing ++ snippet, by rw [heq, List.append_assoc]⟩, ?_⟩
  rw [heq]
  exact firstLine_append_sep existing snippet hne

/-- Witness for C2 at a concrete input. -/
theorem c2_witness :
    headerMarker.isPrefixOf "--- old header ---\n08:00 | x\n".toList = true
    ∧ assembleFile false dublinTime (Except.error "fail")
          "--- old header ---\n08:00 | x\n".toList "09:30 | y\n".toList
        = "--- old header ---\n08:00 | x\n".toList
            ++ sepFor "--- old header ---\n08:00 | x\n".toList ++ "09:30 | y\n".toList := by
  refine ⟨by decide, ?_⟩
  exact (c2_header_never_lost false dublinTime (Except.error "fail")
    "--- old header ---\n08:00 | x\n".toList "09:30 | y\n".toList (by decide)).1

/-- Claim C3: all bytes of the existing content appear verbatim, in order and
contiguously, immediately after the (possibly empty) emitted header: the
output is exactly emitted header ++ existing ++ (separator ++ snippet), and
each position of the existing block equals the corresponding existing byte. -/
theorem c3_append_preserves (includeHeader : Bool) (t : GoTime)
    (tzResult : Except String (List Char)) (existing snippet : List Char) :
    assembleFile includeHeader t tzResult existing snippet
        = emittedHeader includeHeader t tzResult existing
            ++ existing ++ (sepFor existing ++ snippet)
    ∧ ∀ i, i < existing.length →
        (assembleFile includeHeader t tzResult existing snippet)[
            (emittedHeader includeHeader t tzResult existing).length + i]?
          = existing[i]? := by
  have h1 : assembleFile includeHeader t tzResult existing snippet
      = emittedHeader includeHeader t tzResult existing
          ++ (existing ++ (sepFor existing ++ snippet)) := by
    simp [assembleFile, List.append_assoc]
  constructor
  · rw [h1, List.append_assoc]
  · intro i hi
    rw [h1, getElem?_append_offset, getElem?_append_inside existing _ i hi]

/-- Witness for C3 at a concrete input and index. -/
theorem c3_witness :
    1 < ("ab\n".toList : List Char).length
    ∧ (assembleFile true dublinTime (Except.ok "Europe/Dublin".toList)
          "ab\n".toList "xy\n".toList)[
        (emittedHeader true dublinTime (Except.ok "Europe/Dublin".toList)
          "ab\n".toList).length + 1]?
      = ("ab\n".toList : List Char)[1]? := by
  refine ⟨by decide, ?_⟩
  exact (c3_append_preserves true dublinTime (Except.ok "Europe/Dublin".toList)
    "ab\n".toList "xy\n".toList).2 1 (by decide)

/-- Claim C4: for non-empty existing content whose last byte is not a
newline, exactly one newline is inserted between the existing content and
the snippet line (whose own first byte is never a newline); for empty
existing content the output never begins with a newline; for existing
content already ending in a newline no separator is inserted. -/
theorem c4_separator (includeHeader : Bool) (t : GoTime)
    (tzResult : Except String (List Char)) (existing raw snip : List Char)
    (hn : normalizeSnippet raw = Except.ok snip) :
    (existing ≠ [] → existing.getLast? ≠ some '\n' →
        assembleFile includeHeader t tzResult existing snip
          = emittedHeader includeHeader t tzResult existing ++ existing ++ '\n' :: snip)
    ∧ snip.head? ≠ some '\n'
    ∧ (existing = [] →
        (assembleFile includeHeader t tzResult existing snip).head? ≠ some '\n')
    ∧ (existing.getLast? = some '\n' →
        assembleFile includeHeader t tzResult existing snip
          = emittedHeader includeHeader t tzResult existing ++ existing ++ snip) := by
  obtain ⟨hhead, hsne⟩ := normalizeSnippet_head hn
  refine ⟨?_, hhead, ?_, ?_⟩
  · intro hne hlast
    have hsep : sepFor existing = ['\n'] := by
      unfold sepFor
      rw [if_pos ⟨fun h => hne (List.length_eq_zero.mp h), hlast⟩]
    rw [assembleFile, hsep]
    simp [List.append_assoc]
  · intro hnil
    subst hnil
    have hsep : sepFor ([] : List Char) = [] := by decide
    rw [assembleFile, hsep]
    cases includeHeader with
    | false =>
      rw [emittedHeader_of_false]
      simpa using hhead
    | true =>
      rw [emittedHeader_of_true t tzResult (by decide), formatHeaderLine_head]
      simp
  · intro hlast
    have hsep : sepFor existing = [] := by
      unfold sepFor
      rw [if_neg]
      rintro ⟨h1, h2⟩
      exact h2 hlast
    rw [assembleFile, hsep]
    simp

/-- Witness for C4 at a concrete input (existing content missing its
trailing newline). -/
theorem c4_witness :
    normalizeSnippet "09:30 | y".toList = Except.ok "09:30 | y\n".toList
    ∧ assembleFile true dublinTime (Except.ok "Europe/Dublin".toList)
          "08:00 | x".toList "09:30 | y\n".toList
        = emittedHeader true dublinTime (Except.ok "Europe/Dublin".toList)
            "08:00 | x".toList ++ "08:00 | x".toList ++ '\n' :: "09:30 | y\n".toList := by
  refine ⟨by decide, ?_⟩
  exact (c4_separator true dublinTime (Except.ok "Europe/Dublin".toList)
      "08:00 | x".toList "09:30 | y".toList "09:30 | y\n".toList (by decide)).1
    (by decide) (by decide)

/-- Claim C5: a snippet that is empty after trimming makes the operation
fail with the "snippet is empty" error before any write, and the day file's
content is unchanged. -/
theorem c5_empty_snippet (includeHeader : Bool) (t : GoTime)
    (tzResult : Except String (List Char)) (existing raw : List Char)
    (h : trimSpace raw = []) :
    runAssemble includeHeader t tzResult existing raw = Except.error "snippet is empty"
    ∧ runOnFile includeHeader t tzResult existing raw = existing := by
  have hna : normalizeSnippet raw = Except.error "snippet is empty" := by
    simp [normalizeSnippet, h]
  constructor
  · rw [runAssemble, hna]
    rfl
  · rw [runOnFile, runAssemble, hna]
    rfl

/-- Witness for C5 at a concrete whitespace-only snippet. -/
theorem c5_witness :
    trimSpace " \n\t ".toList = []
    ∧ runAssemble true dublinTime (Except.ok "Europe/Dublin".toList)
        "08:00 | x\n".toList " \n\t ".toList = Except.error "snippet is empty"
    ∧ runOnFile true dublinTime (Except.ok "Europe/Dublin".toList)
        "08:00 | x\n".toList " \n\t ".toList = "08:00 | x\n".toList := by
  have h := c5_empty_snippet true dublinTime (Except.ok "Europe/Dublin".toList)
    "08:00 | x\n".toList " \n\t ".toList (by decide)
  exact ⟨by decide, h.1, h.2⟩

/-- Claim C6: a raw snippet that survives trimming is stored as a single
line: every embedded newline is replaced by a space (so the stored line has
no interior newline) and the line ends with exactly one trailing newline. -/
theorem c6_single_line (raw snip : List Char)
    (hn : normalizeSnippet raw = Except.ok snip) :
    snip = ((trimSpace raw).map fun c => if c = '\n' then ' ' else c) ++ ['\n']
    ∧ (∀ c ∈ snip.dropLast, c ≠ '\n')
    ∧ snip.getLast? = some '\n'
    ∧ snip.count '\n' = 1 := by
  obtain ⟨hs, hne⟩ := normalizeSnippet_ok hn
  have hmap : ∀ c ∈ (trimSpace raw).map fun c => if c = '\n' then ' ' else c,
      c ≠ '\n' := by
    intro c hc
    rcases List.mem_map.mp hc with ⟨x, hx, rfl⟩
    split
    · decide
    · assumption
  subst hs
  refine ⟨rfl, ?_, ?_, ?_⟩
  · rw [List.dropLast_concat]
    exact hmap
  · rw [List.getLast?_concat]
  · rw [List.count_append]
    have h0 : ((trimSpace raw).map fun c => if c = '\n' then ' ' else c).count '\n'
        = 0 := List.count_eq_zero.mpr fun h => hmap _ h rfl
    rw [h0]
    rfl

/-- Witness for C6 at a concrete snippet containing an embedded newline. -/
theorem c6_witness :
    normalizeSnippet "line one\nline two".toList
        = Except.ok "line one line two\n".toList
    ∧ ("line one line two\n".toList : List Char).count '\n' = 1 := by
  refine ⟨by decide, ?_⟩
  exact (c6_single_line "line one\nline two".toList "line one line two\n".toList
    (by decide)).2.2.2

/-- Claim C7: header emission is idempotent across sequential assemblies with
header inclusion enabled: the first assembly's output always starts with the
`"---"` marker, so a second assembly over that output emits no header at all
and merely appends — the header emitted in the first round is the only one. -/
theorem c7_no_duplicate_header (t₁ : GoTime) (tz₁ : Except String (List Char))
    (t₂ : GoTime) (tz₂ : Except String (List Char))
    (existing snip₁ snip₂ : List Char) :
    headerMarker.isPrefixOf (assembleFile true t₁ tz₁ existing snip₁) = true
    ∧ assembleFile true t₂ tz₂ (assembleFile true t₁ tz₁ existing snip₁) snip₂
        = assembleFile true t₁ tz₁ existing snip₁
            ++ sepFor (assembleFile true t₁ tz₁ existing snip₁) ++ snip₂ := by
  have h1 : headerMarker.isPrefixOf (assembleFile true t₁ tz₁ existing snip₁) = true := by
    cases hm : headerMarker.isPrefixOf existing with
    | false =>
      rw [assembleFile, emittedHeader_of_true t₁ tz₁ hm, formatHeaderLine_head]
      rfl
    | true =>
      rw [assembleFile, emittedHeader_of_marker true t₁ tz₁ hm, List.nil_append]
      exact isPrefixOf_append snip₁ (isPrefixOf_append (sepFor existing) hm)
  refine ⟨h1, ?_⟩
  rw [assembleFile, emittedHeader_of_marker true t₂ tz₂ h1, List.nil_append]

/-- Witness-style instance for C7 (the theorem itself has no hypotheses; this
records the two-snippets-in-a-row scenario concretely). -/
theorem c7_witness :
    assembleFile true dublinTime (Except.ok "Europe/Dublin".toList)
        (assembleFile true dublinTime (Except.ok "Europe/Dublin".toList) []
          "09:30 | at desk\n".toList)
        "09:53 | reviewed\n".toList
      = ("--- Wednesday Nov 20 2024 in Europe/Dublin ---\n09:30 | at desk\n"
          ++ "09:53 | reviewed\n").toList := by
  have h := c7_no_duplicate_header dublinTime (Except.ok "Europe/Dublin".toList)
    dublinTime (Except.ok "Europe/Dublin".toList) [] "09:30 | at desk\n".toList
    "09:53 | reviewed\n".toList
  rw [h.2]
  decide

/-- Claim C8, counterexample to the claim as stated: the timezone label is
spliced into the `Time.Format` layout string, so a label containing a layout
token is not reproduced verbatim.  With `TZ=MST7MDT` in July (abbreviation
`MDT`), the label `"MST7MDT"` is printed as `"MDT7MDT"`. -/
theorem c8_counterexample :
    formatHeaderLine julyTime "MST7MDT".toList
      ≠ "--- Wednesday Jul 10 2024 in MST7MDT ---".toList := by decide

/-- Claim C8, amended: for every timestamp and every timezone label in which
Go's layout scan finds no reference-layout token (given the ` ---` that
follows it), the emitted header line is exactly
`--- <Weekday> <Month> <Day> <Year> in <Timezone> ---` with the label
verbatim. -/
theorem c8_header_format (t : GoTime) (tz : List Char)
    (h : nextStdChunk (" in ".toList ++ (tz ++ " ---".toList))
          = (" in ".toList ++ (tz ++ " ---".toList), none)) :
    formatHeaderLine t tz
      = "--- ".toList ++ formatToken t GoStd.longWeekDay
          ++ " ".toList ++ formatToken t GoStd.month
          ++ " ".toList ++ formatToken t GoStd.underDay
          ++ " ".toList ++ formatToken t GoStd.longYear
          ++ " in ".toList ++ tz ++ " ---".toList := by
  have h1 : nextStdChunk (headerFormat tz)
      = ("--- ".toList,
          some (GoStd.longWeekDay, " Jan _2 2006 in ".toList ++ (tz ++ " ---".toList))) := rfl
  have h2 : nextStdChunk (" Jan _2 2006 in ".toList ++ (tz ++ " ---".toList))
      = (" ".toList,
          some (GoStd.month, " _2 2006 in ".toList ++ (tz ++ " ---".toList))) := rfl
  have h3 : nextStdChunk (" _2 2006 in ".toList ++ (tz ++ " ---".toList))
      = (" ".toList,
          some (GoStd.underDay, " 2006 in ".toList ++ (tz ++ " ---".toList))) := rfl
  have h4 : nextStdChunk (" 2006 in ".toList ++ (tz ++ " ---".toList))
      = (" ".toList,
          some (GoStd.longYear, " in ".toList ++ (tz ++ " ---".toList))) := rfl
  unfold formatHeaderLine
  rw [goFormat_chunk_some t h1, goFormat_chunk_some t h2, goFormat_chunk_some t h3,
    goFormat_chunk_some t h4, goFormat_chunk_none t h]
  simp [List.append_assoc]

/-- Witness for the amended C8, including the specified Europe/Dublin
scenario end to end. -/
theorem c8_witness :
    nextStdChunk (" in ".toList ++ ("Europe/Dublin".toList ++ " ---".toList))
        = (" in ".toList ++ ("Europe/Dublin".toList ++ " ---".toList), none)
    ∧ formatHeaderLine dublinTime "Europe/Dublin".toList
        = "--- Wednesday Nov 20 2024 in Europe/Dublin ---".toList
    ∧ runAssemble true dublinTime (Except.ok "Europe/Dublin".toList) []
          (initialSnippet "15:04".toList dublinTime "at desk".toList)
        = Except.ok "--- Wednesday Nov 20 2024 in Europe/Dublin ---\n09:30 | at desk\n".toList := by
  refine ⟨by decide, ?_, by decide⟩
  rw [c8_header_format dublinTime "Europe/Dublin".toList (by decide)]
  decide

/-- Claim C9: a timezone-inference failure is not fatal and is the only
swallowed error: the run succeeds exactly when the snippet normalizes, and
the header is still emitted, built from the `<unknown timezone>`
placeholder. -/
theorem c9_tz_failure_not_fatal (e : String) (includeHeader : Bool) (t : GoTime)
    (existing raw snip : List Char) :
    succeeds (runAssemble includeHeader t (Except.error e) existing raw)
        = succeeds (normalizeSnippet raw)
    ∧ resolveTimezone (Except.error e) = unknownTimezone
    ∧ (headerMarker.isPrefixOf existing = false →
        assembleFile true t (Except.error e) existing snip
          = (formatHeaderLine t unknownTimezone ++ ['\n']) ++ existing
              ++ sepFor existing ++ snip) := by
  refine ⟨?_, rfl, ?_⟩
  · rw [runAssemble]
    cases hn : normalizeSnippet raw <;> simp [succeeds, Except.map]
  · intro hm
    rw [assembleFile, emittedHeader_of_true t (Except.error e) hm]
    rfl

/-- Witness for C9 at a concrete failed timezone inference. -/
theorem c9_witness :
    succeeds (runAssemble true dublinTime (Except.error "no tz") []
        "09:30 | y".toList)
      = succeeds (normalizeSnippet "09:30 | y".toList)
    ∧ assembleFile true dublinTime (Except.error "no tz") [] "09:30 | y\n".toList
        = (formatHeaderLine dublinTime unknownTimezone ++ ['\n']) ++ []
            ++ sepFor [] ++ "09:30 | y\n".toList := by
  have h := c9_tz_failure_not_fatal "no tz" true dublinTime [] "09:30 | y".toList
    "09:30 | y\n".toList
  exact ⟨h.1, h.2.2 (by decide)⟩

/-- Claim C10: whenever the operation succeeds, the assembled content ends
with a newline byte, because the newline-terminated snippet line is always
the final component. -/
theorem c10_trailing_newline (includeHeader : Bool) (t : GoTime)
    (tzResult : Except String (List Char)) (existing raw out : List Char)
    (h : runAssemble includeHeader t tzResult existing raw = Except.ok out) :
    out.getLast? = some '\n' := by
  rw [runAssemble] at h
  cases hn : normalizeSnippet raw with
  | error e =>
    rw [hn] at h
    simp [Except.map] at h
  | ok snip =>
    rw [hn] at h
    simp only [Except.map, Except.ok.injEq] at h
    obtain ⟨hs, hne⟩ := normalizeSnippet_ok hn
    rw [← h]
    subst hs
    have hre : assembleFile includeHeader t tzResult existing
        (((trimSpace raw).map fun c => if c = '\n' then ' ' else c) ++ ['\n'])
        = (emittedHeader includeHeader t tzResult existing ++ existing
            ++ sepFor existing
            ++ (trimSpace raw).map fun c => if c = '\n' then ' ' else c) ++ ['\n'] := by
      simp [assembleFile, List.append_assoc]
    rw [hre, List.getLast?_concat]

/-- Witness for C10 at a concrete successful run. -/
theorem c10_witness :
    runAssemble true dublinTime (Except.ok "Europe/Dublin".toList) []
        "09:30 | y".toList
      = Except.ok "--- Wednesday Nov 20 2024 in Europe/Dublin ---\n09:30 | y\n".toList
    ∧ ("--- Wednesday Nov 20 2024 in Europe/Dublin ---\n09:30 | y\n".toList
        : List Char).getLast? = some '\n' := by
  refine ⟨by decide, ?_⟩
  exact c10_trailing_newline true dublinTime (Except.ok "Europe/Dublin".toList) []
    "09:30 | y".toList _ (by decide)

end Snip
